import Mathlib

/-!
Shallow embedding of `src/heys.rs`: Heys' 16-bit SPN block cipher and its
linear-cryptanalysis attack engine.

Modelling conventions:
* `u16` values are embedded as `Nat`; theorems carry `< 65536` bounds where
  the u16 range matters.
* Rust `Result<T>` is embedded as `Except String T`.
* Rust `.unwrap()` panics on `Err`; a panic aborts the computation with no
  error value reported to the caller.  Functions whose Rust signature has no
  error channel but which may panic are embedded as `Option`, with `none`
  denoting a panic.
* Rust `u16` addition in `sum::<u16>()` wraps modulo 2^16 (release-profile
  semantics); it is embedded as addition followed by `% 65536`.
* `f64` arithmetic in `get_bias` is idealized as exact rational arithmetic
  over `ℚ`.  All quantities reachable under the claims' hypotheses are exact
  ratios of small integers.
* The u16 truncation in `b3 << 12` inside `substitute` cannot fire for
  nibble-valued tables (all lookup outputs < 16), which covers every table
  used by the program; the embedding therefore uses plain `Nat` arithmetic
  there, and theorems about generic tables carry the nibble-valued
  hypothesis.
-/

/-- The forward S-box of `src/heys.rs` (association list, nibble to nibble). -/
def SBOX : List (Nat × Nat) :=
  [(0x0, 0xE), (0x1, 0x4), (0x2, 0xD), (0x3, 0x1),
   (0x4, 0x2), (0x5, 0xF), (0x6, 0xB), (0x7, 0x8),
   (0x8, 0x3), (0x9, 0xA), (0xA, 0x6), (0xB, 0xC),
   (0xC, 0x5), (0xD, 0x9), (0xE, 0x0), (0xF, 0x7)]

/-- The inverse S-box of `src/heys.rs`. -/
def SBOX_INVERT : List (Nat × Nat) :=
  [(0xE, 0x0), (0x4, 0x1), (0xD, 0x2), (0x1, 0x3),
   (0x2, 0x4), (0xF, 0x5), (0xB, 0x6), (0x8, 0x7),
   (0x3, 0x8), (0xA, 0x9), (0x6, 0xA), (0xC, 0xB),
   (0x5, 0xC), (0x9, 0xD), (0x0, 0xE), (0x7, 0xF)]

/-- The forward bit-permutation table of `src/heys.rs` (mask to mask). -/
def PERMUTATION : List (Nat × Nat) :=
  [(0x8000, 0x8000), (0x4000, 0x0800), (0x2000, 0x0080), (0x1000, 0x0008),
   (0x0800, 0x4000), (0x0400, 0x0400), (0x0200, 0x0040), (0x0100, 0x0004),
   (0x0080, 0x2000), (0x0040, 0x0200), (0x0020, 0x0020), (0x0010, 0x0002),
   (0x0008, 0x1000), (0x0004, 0x0100), (0x0002, 0x0010), (0x0001, 0x0001)]

/-- The inverse bit-permutation table of `src/heys.rs`. -/
def PERMUTATION_INVERT : List (Nat × Nat) :=
  [(0x8000, 0x8000), (0x0800, 0x4000), (0x0080, 0x2000), (0x0008, 0x1000),
   (0x4000, 0x0800), (0x0400, 0x0400), (0x0040, 0x0200), (0x0004, 0x0100),
   (0x2000, 0x0080), (0x0200, 0x0040), (0x0020, 0x0020), (0x0002, 0x0010),
   (0x1000, 0x0008), (0x0100, 0x0004), (0x0010, 0x0002), (0x0001, 0x0001)]

/-- Embedding of `fn lookup`: first-match scan of an association list. -/
def lookup (kvpairs : List (Nat × Nat)) (val : Nat) : Except String Nat :=
  match kvpairs with
  | [] => .error "Lookup failed"
  | (f, t) :: rest => if f = val then .ok t else lookup rest val

/-- Embedding of `struct Block`: a 16-bit block. -/
structure Block where
  val : Nat
deriving DecidableEq, Repr

namespace Block

/-- Embedding of `Block::new`. -/
def new (val : Nat) : Block := ⟨val⟩

/-- Embedding of `Block::mix_key`: XOR with a round key. -/
def mix_key (b : Block) (key : Nat) : Block := ⟨b.val ^^^ key⟩

/-- Embedding of `Block::get_bit_1base`: bit at 1-based big-endian position. -/
def get_bit_1base (b : Block) (loc : Nat) : Except String Nat :=
  if loc < 1 ∨ loc > 16 then
    .error "loc must be between 1 and 16"
  else if b.val &&& (1 <<< (16 - loc)) = 0 then
    .ok 0
  else
    .ok 1

/-- Embedding of `Block::substitute`: per-nibble table substitution. -/
def substitute (b : Block) (sbox : List (Nat × Nat)) : Except String Block := do
  let b0 ← lookup sbox (b.val % 16)
  let b1 ← lookup sbox ((b.val >>> 4) % 16)
  let b2 ← lookup sbox ((b.val >>> 8) % 16)
  let b3 ← lookup sbox ((b.val >>> 12) % 16)
  return Block.new ((b3 <<< 12) + (b2 <<< 8) + (b1 <<< 4) + b0)

/-- Embedding of `Block::permute`: move each set bit through the mask table,
accumulating the mapped masks. -/
def permute (b : Block) (permutation : List (Nat × Nat)) : Except String Block := do
  let val ← (List.range 16).foldlM (fun acc shift => do
    let mask := 1 <<< shift
    if b.val &&& mask ≠ 0 then
      let mapped ← lookup permutation mask
      return acc + mapped
    else
      return acc) 0
  return Block.new val

end Block

/-- Embedding of `struct HeysCipher`: the five u16 round keys
`round_keys[0] .. round_keys[4]`. -/
structure HeysCipher where
  k0 : Nat
  k1 : Nat
  k2 : Nat
  k3 : Nat
  k4 : Nat

/-- Embedding of `HeysCipher::from_keys`: requires exactly 5 round keys. -/
def HeysCipher.from_keys (new_keys : List Nat) : Except String HeysCipher :=
  match new_keys with
  | [a, b, c, d, e] => .ok ⟨a, b, c, d, e⟩
  | _ => .error "Cipher requires exactly 5 round keys"

/-- Embedding of `HeysCipher::encrypt`: 4 substitution rounds with key mixing
and permutation, then final whitening. -/
def HeysCipher.encrypt (c : HeysCipher) (plaintext : Block) : Except String Block := do
  let u1 := plaintext.mix_key c.k0
  let v1 ← u1.substitute SBOX
  let u2 := (← v1.permute PERMUTATION).mix_key c.k1
  let v2 ← u2.substitute SBOX
  let u3 := (← v2.permute PERMUTATION).mix_key c.k2
  let v3 ← u3.substitute SBOX
  let u4 := (← v3.permute PERMUTATION).mix_key c.k3
  let v4 ← u4.substitute SBOX
  return v4.mix_key c.k4

/-- Embedding of `HeysCipher::decrypt`: the inverse pipeline. -/
def HeysCipher.decrypt (c : HeysCipher) (ciphertext : Block) : Except String Block := do
  let v4 := ciphertext.mix_key c.k4
  let u4 ← v4.substitute SBOX_INVERT
  let v3 ← (u4.mix_key c.k3).permute PERMUTATION_INVERT
  let u3 ← v3.substitute SBOX_INVERT
  let v2 ← (u3.mix_key c.k2).permute PERMUTATION_INVERT
  let u2 ← v2.substitute SBOX_INVERT
  let v1 ← (u2.mix_key c.k1).permute PERMUTATION_INVERT
  let u1 ← v1.substitute SBOX_INVERT
  return u1.mix_key c.k0

/-- Embedding of Rust `.unwrap()`: on `Err` the process panics, so the
computation yields no value at all (`none`); there is no reported failure. -/
def unwrap {α : Type} : Except String α → Option α
  | .ok a => some a
  | .error _ => none

/-- Embedding of `Iterator::sum::<u16>()`: left fold with u16 wrapping
addition (release-profile semantics: overflow wraps modulo 2^16). -/
def sumU16 (l : List Nat) : Nat := l.foldl (fun acc v => (acc + v) % 65536) 0

/-- Embedding of `HeysCipher::check_linear_approx`.  The Rust function
returns a bare `u16` and unwraps every fallible step, so the embedding is
`Option Nat` with `none` denoting a panic. -/
def HeysCipher.check_linear_approx (c : HeysCipher) (pt ct : Block)
    (pt_locs u4_locs : List Nat) : Option Nat := do
  let u4 ← unwrap ((ct.mix_key c.k4).substitute SBOX_INVERT)
  let ptBits ← pt_locs.mapM (fun loc => unwrap (pt.get_bit_1base loc))
  let u4Bits ← u4_locs.mapM (fun loc => unwrap (u4.get_bit_1base loc))
  let binsum := (sumU16 ptBits + sumU16 u4Bits) % 65536
  return 1 - binsum % 2

/-- Embedding of `HeysCipher::get_bias`.  `zip` truncates to the shorter
sequence, the vote sum is a u16 wrapping sum, and the division is by the
length of the plaintext sequence.  (With an empty plaintext list the Rust
code divides 0.0 by 0.0 and yields NaN; rational division by zero yields 0
here, so theorems about the empty corpus are not drawn from this model.) -/
def HeysCipher.get_bias (c : HeysCipher) (plaintexts ciphertexts : List Block)
    (pt_locs u4_locs : List Nat) : Option ℚ := do
  let votes ← (plaintexts.zip ciphertexts).mapM
    (fun pc => c.check_linear_approx pc.1 pc.2 pt_locs u4_locs)
  let s := sumU16 votes
  let prob : ℚ := (s : ℚ) / (plaintexts.length : ℚ)
  return if 1/2 < prob then prob - 1/2 else 1/2 - prob

/-- Embedding of `brute_force_k5`: evaluate every 16-bit candidate for the
final round key (other round keys zero), then stable-sort by descending
bias.  Rust's `sort_by` is a stable merge sort; `List.mergeSort` with the
same total preorder produces the identical output. -/
def brute_force_k5 (plaintexts ciphertexts : List Block)
    (pt_locs u4_locs : List Nat) : Option (List (ℚ × Nat)) := do
  let rankings ← (List.range 65536).mapM (fun round_key => do
    let cipher ← unwrap (HeysCipher.from_keys [0, 0, 0, 0, round_key])
    let bias ← cipher.get_bias plaintexts ciphertexts pt_locs u4_locs
    return (bias, round_key))
  return rankings.mergeSort (fun e1 e2 => decide (e2.1 ≤ e1.1))

/-! Helper definitions used to state and prove properties of the embedding. -/

/-- Nibble `i` (0 = least significant) of a 16-bit value. -/
def nib (v i : Nat) : Nat := (v >>> (4 * i)) % 16

/-- The 0/1 bit of a block at 1-based big-endian position `loc`, as a pure
arithmetic function; agrees with `Block.get_bit_1base` on valid locations. -/
def bitAt (b : Block) (loc : Nat) : Nat := b.val / 2 ^ (16 - loc) % 2

/-- Bit `s` (0-based, little-endian) of `v`, as a pure arithmetic function. -/
def pbit (v s : Nat) : Nat := (v >>> s) % 2

/-- The forward S-box as a function on nibbles. -/
def sboxF : Nat → Nat
  | 0 => 0xE | 1 => 0x4 | 2 => 0xD | 3 => 0x1
  | 4 => 0x2 | 5 => 0xF | 6 => 0xB | 7 => 0x8
  | 8 => 0x3 | 9 => 0xA | 10 => 0x6 | 11 => 0xC
  | 12 => 0x5 | 13 => 0x9 | 14 => 0x0 | _ => 0x7

/-- The inverse S-box as a function on nibbles. -/
def sboxInvF : Nat → Nat
  | 0 => 0xE | 1 => 0x3 | 2 => 0x4 | 3 => 0x8
  | 4 => 0x1 | 5 => 0xC | 6 => 0xA | 7 => 0xF
  | 8 => 0x7 | 9 => 0xD | 10 => 0x9 | 11 => 0x6
  | 12 => 0xB | 13 => 0x2 | 14 => 0x0 | _ => 0x5

/-- The bit-position map realized by both `PERMUTATION` and
`PERMUTATION_INVERT` (the permutation is an involution): source bit `s`
goes to bit `sigmaF s`. -/
def sigmaF : Nat → Nat
  | 0 => 0 | 1 => 4 | 2 => 8 | 3 => 12
  | 4 => 1 | 5 => 5 | 6 => 9 | 7 => 13
  | 8 => 2 | 9 => 6 | 10 => 10 | 11 => 14
  | 12 => 3 | 13 => 7 | 14 => 11 | _ => 15

/-- Pure-arithmetic form of the accumulator loop in `Block::permute` for a
table realizing the bit map `f`. -/
def permAcc (f : Nat → Nat) (v : Nat) : Nat :=
  (List.range 16).foldl
    (fun acc s => if v &&& (1 <<< s) ≠ 0 then acc + (1 <<< f s) else acc) 0

/-- The bias value computed by `brute_force_k5` for final-round-key
candidate `rk` (the other four round keys zero); total function form. -/
def biasQ (pts cts : List Block) (ptl u4l : List Nat) (rk : Nat) : ℚ :=
  (HeysCipher.get_bias ⟨0, 0, 0, 0, rk⟩ pts cts ptl u4l).getD 0

/-- Number of corpus pairs on which the evaluator votes 1. -/
def countOnes (c : HeysCipher) (pts cts : List Block) (ptl u4l : List Nat) : Nat :=
  ((pts.zip cts).filter
    (fun pc => c.check_linear_approx pc.1 pc.2 ptl u4l = some 1)).length

/-- The value produced by `Block::substitute` on input value `v` for a table
realizing the nibble function `f`. -/
def substF (f : Nat → Nat) (v : Nat) : Nat :=
  (f ((v >>> 12) % 16)) <<< 12 + (f ((v >>> 8) % 16)) <<< 8 +
    (f ((v >>> 4) % 16)) <<< 4 + f (v % 16)

instance {ε α : Type} [DecidableEq ε] [DecidableEq α] : DecidableEq (Except ε α) :=
  fun a b =>
  match a, b with
  | .ok x, .ok y => if h : x = y then .isTrue (by rw [h]) else .isFalse (by simp [h])
  | .error x, .error y =>
    if h : x = y then .isTrue (by rw [h]) else .isFalse (by simp [h])
  | .ok _, .error _ => .isFalse (by simp)
  | .error _, .ok _ => .isFalse (by simp)

/-! Helper lemmas. -/

theorem lookup_SBOX_eq : ∀ n, n < 16 → lookup SBOX n = .ok (sboxF n) := by decide

theorem lookup_SBOX_INVERT_eq : ∀ n, n < 16 → lookup SBOX_INVERT n = .ok (sboxInvF n) := by
  decide

theorem sboxF_lt : ∀ n, n < 16 → sboxF n < 16 := by decide

theorem sboxInvF_lt : ∀ n, n < 16 → sboxInvF n < 16 := by decide

theorem sboxInvF_sboxF : ∀ n, n < 16 → sboxInvF (sboxF n) = n := by decide

theorem substitute_eq_of (T : List (Nat × Nat)) (f : Nat → Nat)
    (h : ∀ n, n < 16 → lookup T n = .ok (f n)) (v : Nat) :
    Block.substitute ⟨v⟩ T =
      .ok ⟨(f ((v >>> 12) % 16)) <<< 12 + (f ((v >>> 8) % 16)) <<< 8 +
           (f ((v >>> 4) % 16)) <<< 4 + f (v % 16)⟩ := by
  have h0 := h (v % 16) (Nat.mod_lt _ (by norm_num))
  have h1 := h ((v >>> 4) % 16) (Nat.mod_lt _ (by norm_num))
  have h2 := h ((v >>> 8) % 16) (Nat.mod_lt _ (by norm_num))
  have h3 := h ((v >>> 12) % 16) (Nat.mod_lt _ (by norm_num))
  simp [Block.substitute, h0, h1, h2, h3, Block.new]
  rfl

theorem assemble_lt (a b c d : Nat) (ha : a < 16) (hb : b < 16) (hc : c < 16)
    (hd : d < 16) : d <<< 12 + c <<< 8 + b <<< 4 + a < 65536 := by
  simp only [Nat.shiftLeft_eq]
  omega

theorem nib_extract (a b c d : Nat) (ha : a < 16) (hb : b < 16) (hc : c < 16)
    (hd : d < 16) :
    (d <<< 12 + c <<< 8 + b <<< 4 + a) % 16 = a ∧
    ((d <<< 12 + c <<< 8 + b <<< 4 + a) >>> 4) % 16 = b ∧
    ((d <<< 12 + c <<< 8 + b <<< 4 + a) >>> 8) % 16 = c ∧
    ((d <<< 12 + c <<< 8 + b <<< 4 + a) >>> 12) % 16 = d := by
  simp only [Nat.shiftLeft_eq, Nat.shiftRight_eq_div_pow]
  omega

theorem nib_decomp (v : Nat) (h : v < 65536) :
    ((v >>> 12) % 16) <<< 12 + ((v >>> 8) % 16) <<< 8 +
      ((v >>> 4) % 16) <<< 4 + v % 16 = v := by
  simp only [Nat.shiftLeft_eq, Nat.shiftRight_eq_div_pow]
  omega

theorem substitute_SBOX_roundtrip (v : Nat) (hv : v < 65536) :
    ∃ w, Block.substitute ⟨v⟩ SBOX = .ok ⟨w⟩ ∧ w < 65536 ∧
      Block.substitute ⟨w⟩ SBOX_INVERT = .ok ⟨v⟩ := by
  have hs := substitute_eq_of SBOX sboxF lookup_SBOX_eq v
  have ha := sboxF_lt (v % 16) (Nat.mod_lt _ (by norm_num))
  have hb := sboxF_lt ((v >>> 4) % 16) (Nat.mod_lt _ (by norm_num))
  have hc := sboxF_lt ((v >>> 8) % 16) (Nat.mod_lt _ (by norm_num))
  have hd := sboxF_lt ((v >>> 12) % 16) (Nat.mod_lt _ (by norm_num))
  refine ⟨_, hs, assemble_lt _ _ _ _ ha hb hc hd, ?_⟩
  have hinv := substitute_eq_of SBOX_INVERT sboxInvF lookup_SBOX_INVERT_eq
    ((sboxF ((v >>> 12) % 16)) <<< 12 + (sboxF ((v >>> 8) % 16)) <<< 8 +
     (sboxF ((v >>> 4) % 16)) <<< 4 + sboxF (v % 16))
  obtain ⟨e0, e1, e2, e3⟩ := nib_extract _ _ _ _ ha hb hc hd
  rw [hinv, e0, e1, e2, e3,
    sboxInvF_sboxF _ (Nat.mod_lt _ (by norm_num)),
    sboxInvF_sboxF _ (Nat.mod_lt _ (by norm_num)),
    sboxInvF_sboxF _ (Nat.mod_lt _ (by norm_num)),
    sboxInvF_sboxF _ (Nat.mod_lt _ (by norm_num)),
    nib_decomp v hv]

theorem lookup_PERMUTATION_eq :
    ∀ s, s < 16 → lookup PERMUTATION (1 <<< s) = .ok (1 <<< sigmaF s) := by decide

theorem lookup_PERMUTATION_INVERT_eq :
    ∀ s, s < 16 → lookup PERMUTATION_INVERT (1 <<< s) = .ok (1 <<< sigmaF s) := by
  decide

theorem and_one_shiftLeft (v s : Nat) : v &&& (1 <<< s) = v / 2 ^ s % 2 * 2 ^ s := by
  rw [Nat.one_shiftLeft, Nat.and_two_pow, Nat.testBit_to_div_mod]
  rcases Nat.mod_two_eq_zero_or_one (v / 2 ^ s) with h | h <;> simp [h]

theorem fold_step (v s m acc : Nat) :
    (if v &&& (1 <<< s) ≠ 0 then acc + m else acc) = acc + v / 2 ^ s % 2 * m := by
  rw [and_one_shiftLeft]
  rcases Nat.mod_two_eq_zero_or_one (v / 2 ^ s) with h | h <;>
    simp [h, Nat.ne_of_gt (Nat.two_pow_pos s)]

theorem permAcc_sigmaF (v : Nat) : permAcc sigmaF v =
    v % 2 * 1 + v / 2 % 2 * 16 + v / 4 % 2 * 256 + v / 8 % 2 * 4096 +
    v / 16 % 2 * 2 + v / 32 % 2 * 32 + v / 64 % 2 * 512 + v / 128 % 2 * 8192 +
    v / 256 % 2 * 4 + v / 512 % 2 * 64 + v / 1024 % 2 * 1024 +
    v / 2048 % 2 * 16384 + v / 4096 % 2 * 8 + v / 8192 % 2 * 128 +
    v / 16384 % 2 * 2048 + v / 32768 % 2 * 32768 := by
  show (List.range 16).foldl _ 0 = _
  rw [show List.range 16 = [0, 1, 2, 3, 4, 5, 6, 7, 8, 9, 10, 11, 12, 13, 14, 15]
    from rfl]
  simp only [List.foldl_cons, List.foldl_nil]
  simp only [fold_step]
  norm_num [sigmaF]
  omega

theorem mod2_le (x : Nat) : x % 2 ≤ 1 := by omega

theorem bits_of_combo (y0 y1 y2 y3 y4 y5 y6 y7 y8 y9 y10 y11 y12 y13 y14 y15 : Nat)
    (h0 : y0 ≤ 1) (h1 : y1 ≤ 1) (h2 : y2 ≤ 1) (h3 : y3 ≤ 1)
    (h4 : y4 ≤ 1) (h5 : y5 ≤ 1) (h6 : y6 ≤ 1) (h7 : y7 ≤ 1)
    (h8 : y8 ≤ 1) (h9 : y9 ≤ 1) (h10 : y10 ≤ 1) (h11 : y11 ≤ 1)
    (h12 : y12 ≤ 1) (h13 : y13 ≤ 1) (h14 : y14 ≤ 1) (h15 : y15 ≤ 1) :
    (y0 + 2 * y1 + 4 * y2 + 8 * y3 + 16 * y4 + 32 * y5 + 64 * y6 + 128 * y7 + 256 * y8 + 512 * y9 + 1024 * y10 + 2048 * y11 + 4096 * y12 + 8192 * y13 + 16384 * y14 + 32768 * y15) < 65536 ∧
    (y0 + 2 * y1 + 4 * y2 + 8 * y3 + 16 * y4 + 32 * y5 + 64 * y6 + 128 * y7 + 256 * y8 + 512 * y9 + 1024 * y10 + 2048 * y11 + 4096 * y12 + 8192 * y13 + 16384 * y14 + 32768 * y15) % 2 = y0 ∧
    (y0 + 2 * y1 + 4 * y2 + 8 * y3 + 16 * y4 + 32 * y5 + 64 * y6 + 128 * y7 + 256 * y8 + 512 * y9 + 1024 * y10 + 2048 * y11 + 4096 * y12 + 8192 * y13 + 16384 * y14 + 32768 * y15) / 2 % 2 = y1 ∧
    (y0 + 2 * y1 + 4 * y2 + 8 * y3 + 16 * y4 + 32 * y5 + 64 * y6 + 128 * y7 + 256 * y8 + 512 * y9 + 1024 * y10 + 2048 * y11 + 4096 * y12 + 8192 * y13 + 16384 * y14 + 32768 * y15) / 4 % 2 = y2 ∧
    (y0 + 2 * y1 + 4 * y2 + 8 * y3 + 16 * y4 + 32 * y5 + 64 * y6 + 128 * y7 + 256 * y8 + 512 * y9 + 1024 * y10 + 2048 * y11 + 4096 * y12 + 8192 * y13 + 16384 * y14 + 32768 * y15) / 8 % 2 = y3 ∧
    (y0 + 2 * y1 + 4 * y2 + 8 * y3 + 16 * y4 + 32 * y5 + 64 * y6 + 128 * y7 + 256 * y8 + 512 * y9 + 1024 * y10 + 2048 * y11 + 4096 * y12 + 8192 * y13 + 16384 * y14 + 32768 * y15) / 16 % 2 = y4 ∧
    (y0 + 2 * y1 + 4 * y2 + 8 * y3 + 16 * y4 + 32 * y5 + 64 * y6 + 128 * y7 + 256 * y8 + 512 * y9 + 1024 * y10 + 2048 * y11 + 4096 * y12 + 8192 * y13 + 16384 * y14 + 32768 * y15) / 32 % 2 = y5 ∧
    (y0 + 2 * y1 + 4 * y2 + 8 * y3 + 16 * y4 + 32 * y5 + 64 * y6 + 128 * y7 + 256 * y8 + 512 * y9 + 1024 * y10 + 2048 * y11 + 4096 * y12 + 8192 * y13 + 16384 * y14 + 32768 * y15) / 64 % 2 = y6 ∧
    (y0 + 2 * y1 + 4 * y2 + 8 * y3 + 16 * y4 + 32 * y5 + 64 * y6 + 128 * y7 + 256 * y8 + 512 * y9 + 1024 * y10 + 2048 * y11 + 4096 * y12 + 8192 * y13 + 16384 * y14 + 32768 * y15) / 128 % 2 = y7 ∧
    (y0 + 2 * y1 + 4 * y2 + 8 * y3 + 16 * y4 + 32 * y5 + 64 * y6 + 128 * y7 + 256 * y8 + 512 * y9 + 1024 * y10 + 2048 * y11 + 4096 * y12 + 8192 * y13 + 16384 * y14 + 32768 * y15) / 256 % 2 = y8 ∧
    (y0 + 2 * y1 + 4 * y2 + 8 * y3 + 16 * y4 + 32 * y5 + 64 * y6 + 128 * y7 + 256 * y8 + 512 * y9 + 1024 * y10 + 2048 * y11 + 4096 * y12 + 8192 * y13 + 16384 * y14 + 32768 * y15) / 512 % 2 = y9 ∧
    (y0 + 2 * y1 + 4 * y2 + 8 * y3 + 16 * y4 + 32 * y5 + 64 * y6 + 128 * y7 + 256 * y8 + 512 * y9 + 1024 * y10 + 2048 * y11 + 4096 * y12 + 8192 * y13 + 16384 * y14 + 32768 * y15) / 1024 % 2 = y10 ∧
    (y0 + 2 * y1 + 4 * y2 + 8 * y3 + 16 * y4 + 32 * y5 + 64 * y6 + 128 * y7 + 256 * y8 + 512 * y9 + 1024 * y10 + 2048 * y11 + 4096 * y12 + 8192 * y13 + 16384 * y14 + 32768 * y15) / 2048 % 2 = y11 ∧
    (y0 + 2 * y1 + 4 * y2 + 8 * y3 + 16 * y4 + 32 * y5 + 64 * y6 + 128 * y7 + 256 * y8 + 512 * y9 + 1024 * y10 + 2048 * y11 + 4096 * y12 + 8192 * y13 + 16384 * y14 + 32768 * y15) / 4096 % 2 = y12 ∧
    (y0 + 2 * y1 + 4 * y2 + 8 * y3 + 16 * y4 + 32 * y5 + 64 * y6 + 128 * y7 + 256 * y8 + 512 * y9 + 1024 * y10 + 2048 * y11 + 4096 * y12 + 8192 * y13 + 16384 * y14 + 32768 * y15) / 8192 % 2 = y13 ∧
    (y0 + 2 * y1 + 4 * y2 + 8 * y3 + 16 * y4 + 32 * y5 + 64 * y6 + 128 * y7 + 256 * y8 + 512 * y9 + 1024 * y10 + 2048 * y11 + 4096 * y12 + 8192 * y13 + 16384 * y14 + 32768 * y15) / 16384 % 2 = y14 ∧
    (y0 + 2 * y1 + 4 * y2 + 8 * y3 + 16 * y4 + 32 * y5 + 64 * y6 + 128 * y7 + 256 * y8 + 512 * y9 + 1024 * y10 + 2048 * y11 + 4096 * y12 + 8192 * y13 + 16384 * y14 + 32768 * y15) / 32768 % 2 = y15 := by
  refine ⟨?_, ?_, ?_, ?_, ?_, ?_, ?_, ?_, ?_, ?_, ?_, ?_, ?_, ?_, ?_, ?_, ?_⟩
    <;> omega

theorem vdecomp (v : Nat) (hv : v < 65536) :
    v = v % 2 + 2 * (v / 2 % 2) + 4 * (v / 4 % 2) + 8 * (v / 8 % 2) + 16 * (v / 16 % 2) + 32 * (v / 32 % 2) + 64 * (v / 64 % 2) + 128 * (v / 128 % 2) + 256 * (v / 256 % 2) + 512 * (v / 512 % 2) + 1024 * (v / 1024 % 2) + 2048 * (v / 2048 % 2) + 4096 * (v / 4096 % 2) + 8192 * (v / 8192 % 2) + 16384 * (v / 16384 % 2) + 32768 * (v / 32768 % 2) := by
  omega

theorem permAcc_sigmaF_lt (v : Nat) : permAcc sigmaF v < 65536 := by
  obtain ⟨blt, -, -, -, -, -, -, -, -, -, -, -, -, -, -, -, -⟩ :=
    bits_of_combo (v % 2) (v / 16 % 2) (v / 256 % 2) (v / 4096 % 2) (v / 2 % 2) (v / 32 % 2) (v / 512 % 2) (v / 8192 % 2) (v / 4 % 2) (v / 64 % 2) (v / 1024 % 2) (v / 16384 % 2) (v / 8 % 2) (v / 128 % 2) (v / 2048 % 2) (v / 32768 % 2)
      (mod2_le _) (mod2_le _) (mod2_le _) (mod2_le _) (mod2_le _) (mod2_le _)
      (mod2_le _) (mod2_le _) (mod2_le _) (mod2_le _) (mod2_le _) (mod2_le _)
      (mod2_le _) (mod2_le _) (mod2_le _) (mod2_le _)
  have hc : permAcc sigmaF v =
      v % 2 + 2 * (v / 16 % 2) + 4 * (v / 256 % 2) + 8 * (v / 4096 % 2) + 16 * (v / 2 % 2) + 32 * (v / 32 % 2) + 64 * (v / 512 % 2) + 128 * (v / 8192 % 2) + 256 * (v / 4 % 2) + 512 * (v / 64 % 2) + 1024 * (v / 1024 % 2) + 2048 * (v / 16384 % 2) + 4096 * (v / 8 % 2) + 8192 * (v / 128 % 2) + 16384 * (v / 2048 % 2) + 32768 * (v / 32768 % 2) := by
    rw [permAcc_sigmaF v]; ring
  rw [hc]
  exact blt

theorem permAcc_sigmaF_invol (v : Nat) (hv : v < 65536) :
    permAcc sigmaF (permAcc sigmaF v) = v := by
  have e1 := permAcc_sigmaF v
  have e2 := permAcc_sigmaF (permAcc sigmaF v)
  obtain ⟨blt, b1, b2, b3, b4, b5, b6, b7, b8, b9, b10, b11, b12, b13, b14, b15, b16⟩ :=
    bits_of_combo (v % 2) (v / 16 % 2) (v / 256 % 2) (v / 4096 % 2) (v / 2 % 2) (v / 32 % 2) (v / 512 % 2) (v / 8192 % 2) (v / 4 % 2) (v / 64 % 2) (v / 1024 % 2) (v / 16384 % 2) (v / 8 % 2) (v / 128 % 2) (v / 2048 % 2) (v / 32768 % 2)
      (mod2_le _) (mod2_le _) (mod2_le _) (mod2_le _) (mod2_le _) (mod2_le _)
      (mod2_le _) (mod2_le _) (mod2_le _) (mod2_le _) (mod2_le _) (mod2_le _)
      (mod2_le _) (mod2_le _) (mod2_le _) (mod2_le _)
  have hw : permAcc sigmaF v =
      v % 2 + 2 * (v / 16 % 2) + 4 * (v / 256 % 2) + 8 * (v / 4096 % 2) + 16 * (v / 2 % 2) + 32 * (v / 32 % 2) + 64 * (v / 512 % 2) + 128 * (v / 8192 % 2) + 256 * (v / 4 % 2) + 512 * (v / 64 % 2) + 1024 * (v / 1024 % 2) + 2048 * (v / 16384 % 2) + 4096 * (v / 8 % 2) + 8192 * (v / 128 % 2) + 16384 * (v / 2048 % 2) + 32768 * (v / 32768 % 2) := by
    rw [e1]; ring
  rw [← hw] at b1 b2 b3 b4 b5 b6 b7 b8 b9 b10 b11 b12 b13 b14 b15 b16
  rw [b1, b2, b3, b4, b5, b6, b7, b8, b9, b10, b11, b12, b13, b14, b15, b16] at e2
  have e4 : permAcc sigmaF (permAcc sigmaF v) =
      v % 2 + 2 * (v / 2 % 2) + 4 * (v / 4 % 2) + 8 * (v / 8 % 2) + 16 * (v / 16 % 2) + 32 * (v / 32 % 2) + 64 * (v / 64 % 2) + 128 * (v / 128 % 2) + 256 * (v / 256 % 2) + 512 * (v / 512 % 2) + 1024 * (v / 1024 % 2) + 2048 * (v / 2048 % 2) + 4096 * (v / 4096 % 2) + 8192 * (v / 8192 % 2) + 16384 * (v / 16384 % 2) + 32768 * (v / 32768 % 2) := by
    rw [e2]; ring
  rw [e4]
  exact (vdecomp v hv).symm

theorem except_bind_ok {α β : Type} (a : α) (g : α → Except String β) :
    (Except.ok a >>= g : Except String β) = g a := rfl

theorem permute_foldlM (T : List (Nat × Nat)) (f : Nat → Nat) (v : Nat)
    (h : ∀ s, s < 16 → lookup T (1 <<< s) = .ok (1 <<< f s)) :
    ∀ (L : List Nat), (∀ s ∈ L, s < 16) → ∀ acc : Nat,
      (L.foldlM (fun acc shift => do
          let mask := 1 <<< shift
          if v &&& mask ≠ 0 then
            let mapped ← lookup T mask
            return acc + mapped
          else
            return acc) acc : Except String Nat)
        = .ok (L.foldl
            (fun acc s => if v &&& (1 <<< s) ≠ 0 then acc + (1 <<< f s) else acc)
            acc) := by
  intro L
  induction L with
  | nil => intro _ acc; rfl
  | cons s rest ih =>
    intro hL acc
    have hs : s < 16 := hL s (List.mem_cons_self s rest)
    have hrest : ∀ x ∈ rest, x < 16 := fun x hx => hL x (List.mem_cons_of_mem s hx)
    rw [List.foldlM_cons, List.foldl_cons]
    by_cases hc : v &&& (1 <<< s) ≠ 0
    · simp only [if_pos hc, h s hs, except_bind_ok]
      exact ih hrest (acc + 1 <<< f s)
    · simp only [if_neg hc]
      exact ih hrest acc

theorem permute_eq_of (T : List (Nat × Nat)) (f : Nat → Nat)
    (h : ∀ s, s < 16 → lookup T (1 <<< s) = .ok (1 <<< f s)) (b : Block) :
    Block.permute b T = .ok ⟨permAcc f b.val⟩ := by
  unfold Block.permute permAcc
  rw [permute_foldlM T f b.val h (List.range 16)
    (fun s hs => List.mem_range.mp hs) 0]
  rfl

theorem permute_PERMUTATION_roundtrip (v : Nat) (hv : v < 65536) :
    ∃ w, Block.permute ⟨v⟩ PERMUTATION = .ok ⟨w⟩ ∧ w < 65536 ∧
      Block.permute ⟨w⟩ PERMUTATION_INVERT = .ok ⟨v⟩ := by
  refine ⟨permAcc sigmaF v, permute_eq_of _ _ lookup_PERMUTATION_eq ⟨v⟩,
    permAcc_sigmaF_lt v, ?_⟩
  rw [permute_eq_of _ _ lookup_PERMUTATION_INVERT_eq ⟨permAcc sigmaF v⟩]
  show Except.ok (Block.mk (permAcc sigmaF (permAcc sigmaF v))) = _
  rw [permAcc_sigmaF_invol v hv]

theorem xor_lt_65536 {x y : Nat} (hx : x < 65536) (hy : y < 65536) :
    x ^^^ y < 65536 :=
  Nat.xor_lt_two_pow (n := 16) hx hy

/-- C1: for every set of 5 round subkeys (16-bit values) and every 16-bit
input block `x`, encryption succeeds and decrypting the result returns `x`:
`decrypt (encrypt x) = x`. -/
theorem C1_decrypt_encrypt (k0 k1 k2 k3 k4 x : Nat)
    (h0 : k0 < 65536) (h1 : k1 < 65536) (h2 : k2 < 65536) (h3 : k3 < 65536)
    (h4 : k4 < 65536) (hx : x < 65536) :
    ∃ ct : Block, (HeysCipher.mk k0 k1 k2 k3 k4).encrypt ⟨x⟩ = .ok ct ∧
      (HeysCipher.mk k0 k1 k2 k3 k4).decrypt ct = .ok ⟨x⟩ := by
  have hu1 : x ^^^ k0 < 65536 := xor_lt_65536 hx h0
  obtain ⟨v1, e1, l1, i1⟩ := substitute_SBOX_roundtrip (x ^^^ k0) hu1
  obtain ⟨p1, e2, l2, i2⟩ := permute_PERMUTATION_roundtrip v1 l1
  have hu2 : p1 ^^^ k1 < 65536 := xor_lt_65536 l2 h1
  obtain ⟨v2, e3, l3, i3⟩ := substitute_SBOX_roundtrip (p1 ^^^ k1) hu2
  obtain ⟨p2, e4, l4, i4⟩ := permute_PERMUTATION_roundtrip v2 l3
  have hu3 : p2 ^^^ k2 < 65536 := xor_lt_65536 l4 h2
  obtain ⟨v3, e5, l5, i5⟩ := substitute_SBOX_roundtrip (p2 ^^^ k2) hu3
  obtain ⟨p3, e6, l6, i6⟩ := permute_PERMUTATION_roundtrip v3 l5
  have hu4 : p3 ^^^ k3 < 65536 := xor_lt_65536 l6 h3
  obtain ⟨v4, e7, l7, i7⟩ := substitute_SBOX_roundtrip (p3 ^^^ k3) hu4
  refine ⟨⟨v4 ^^^ k4⟩, ?_, ?_⟩
  · simp only [HeysCipher.encrypt, Block.mix_key, e1, e2, e3, e4, e5, e6, e7,
      except_bind_ok]
    rfl
  · simp only [HeysCipher.decrypt, Block.mix_key, Nat.xor_cancel_right,
      i7, i6, i5, i4, i3, i2, i1, except_bind_ok]
    rfl

/-- Witness for C1 at the concrete subkeys 1,2,3,4,5 (the repository's own
test vector) and input 0xABCD. -/
theorem C1_decrypt_encrypt_witness :
    ∃ ct : Block, (HeysCipher.mk 1 2 3 4 5).encrypt ⟨0xABCD⟩ = .ok ct ∧
      (HeysCipher.mk 1 2 3 4 5).decrypt ct = .ok ⟨0xABCD⟩ :=
  C1_decrypt_encrypt 1 2 3 4 5 0xABCD (by norm_num) (by norm_num) (by norm_num)
    (by norm_num) (by norm_num) (by norm_num)

theorem option_bind_some {α β : Type} (a : α) (g : α → Option β) :
    (some a >>= g : Option β) = g a := rfl

theorem get_bit_1base_valid (b : Block) (loc : Nat) (hl : 1 ≤ loc)
    (hr : loc ≤ 16) : b.get_bit_1base loc = .ok (bitAt b loc) := by
  unfold Block.get_bit_1base bitAt
  rw [if_neg (by omega)]
  have hand := and_one_shiftLeft b.val (16 - loc)
  by_cases hb : b.val / 2 ^ (16 - loc) % 2 = 1
  · rw [if_neg (by rw [hand, hb]; simp [Nat.ne_of_gt (Nat.two_pow_pos (16 - loc))]),
      hb]
  · have hb0 : b.val / 2 ^ (16 - loc) % 2 = 0 := by omega
    rw [if_pos (by rw [hand, hb0]; simp), hb0]

theorem mapM_unwrap_get_bits (b : Block) (locs : List Nat)
    (h : ∀ l ∈ locs, 1 ≤ l ∧ l ≤ 16) :
    locs.mapM (fun loc => unwrap (b.get_bit_1base loc)) =
      some (locs.map (fun loc => bitAt b loc)) := by
  induction locs with
  | nil => rfl
  | cons a rest ih =>
    have ha := h a (List.mem_cons_self a rest)
    have hrest := ih (fun l hl => h l (List.mem_cons_of_mem a hl))
    rw [List.mapM_cons, get_bit_1base_valid b a ha.1 ha.2]
    show (some (bitAt b a) >>= fun x => rest.mapM _ >>= fun xs => pure (x :: xs)) = _
    rw [option_bind_some, hrest, option_bind_some, List.map_cons]
    rfl

theorem sumU16_foldl_mod_two (l : List Nat) :
    ∀ acc, (l.foldl (fun a v => (a + v) % 65536) acc) % 2 = (acc + l.sum) % 2 := by
  induction l with
  | nil => intro acc; simp
  | cons v rest ih =>
    intro acc
    rw [List.foldl_cons, ih ((acc + v) % 65536), List.sum_cons]
    omega

theorem sumU16_mod_two (l : List Nat) : sumU16 l % 2 = l.sum % 2 := by
  unfold sumU16
  rw [sumU16_foldl_mod_two]
  simp

/-- C2: on valid bit locations the evaluator computes the intermediate state
`u4 = (ct XOR k4).substitute(SBOX_INVERT)`, sums the selected plaintext and
u4 bits over the integers, and returns `1 - (sum mod 2)`, which is in {0,1}
and equals 1 exactly when the XOR-parity of the selected bits is 0. -/
theorem C2_check_linear_approx (c : HeysCipher) (pt ct : Block)
    (pt_locs u4_locs : List Nat)
    (hpt : ∀ l ∈ pt_locs, 1 ≤ l ∧ l ≤ 16)
    (hu4 : ∀ l ∈ u4_locs, 1 ≤ l ∧ l ≤ 16) :
    ∃ u4 : Block, (ct.mix_key c.k4).substitute SBOX_INVERT = .ok u4 ∧
      c.check_linear_approx pt ct pt_locs u4_locs =
        some (1 - ((pt_locs.map (fun l => bitAt pt l)).sum +
                   (u4_locs.map (fun l => bitAt u4 l)).sum) % 2) ∧
      1 - ((pt_locs.map (fun l => bitAt pt l)).sum +
           (u4_locs.map (fun l => bitAt u4 l)).sum) % 2 ≤ 1 ∧
      (1 - ((pt_locs.map (fun l => bitAt pt l)).sum +
            (u4_locs.map (fun l => bitAt u4 l)).sum) % 2 = 1 ↔
        ((pt_locs.map (fun l => bitAt pt l)).sum +
         (u4_locs.map (fun l => bitAt u4 l)).sum) % 2 = 0) := by
  have hsub := substitute_eq_of SBOX_INVERT sboxInvF lookup_SBOX_INVERT_eq
    (ct.val ^^^ c.k4)
  refine ⟨_, hsub, ?_, by omega, by omega⟩
  unfold HeysCipher.check_linear_approx
  rw [show ct.mix_key c.k4 = ⟨ct.val ^^^ c.k4⟩ from rfl, hsub]
  show (some _ >>= fun u4 => _) = _
  rw [option_bind_some, mapM_unwrap_get_bits pt pt_locs hpt, option_bind_some,
    mapM_unwrap_get_bits _ u4_locs hu4, option_bind_some]
  have hA := sumU16_mod_two (pt_locs.map (fun l => bitAt pt l))
  have hB := sumU16_mod_two (u4_locs.map (fun l =>
    bitAt ⟨sboxInvF ((ct.val ^^^ c.k4) >>> 12 % 16) <<< 12 +
           sboxInvF ((ct.val ^^^ c.k4) >>> 8 % 16) <<< 8 +
           sboxInvF ((ct.val ^^^ c.k4) >>> 4 % 16) <<< 4 +
           sboxInvF ((ct.val ^^^ c.k4) % 16)⟩ l))
  show some _ = some _
  congr 1
  omega

/-- Witness for C2 at a concrete cipher, pair, and the reference paper's
approximation locations. -/
theorem C2_check_linear_approx_witness :
    ∃ u4 : Block,
      ((Block.mk 0x1234).mix_key 5).substitute SBOX_INVERT = .ok u4 ∧
      (HeysCipher.mk 1 2 3 4 5).check_linear_approx ⟨0xABCD⟩ ⟨0x1234⟩ [5, 7, 8]
          [6, 8, 14, 16] =
        some (1 - (([5, 7, 8].map (fun l => bitAt ⟨0xABCD⟩ l)).sum +
                   ([6, 8, 14, 16].map (fun l => bitAt u4 l)).sum) % 2) ∧
      1 - (([5, 7, 8].map (fun l => bitAt ⟨0xABCD⟩ l)).sum +
           ([6, 8, 14, 16].map (fun l => bitAt u4 l)).sum) % 2 ≤ 1 ∧
      (1 - (([5, 7, 8].map (fun l => bitAt ⟨0xABCD⟩ l)).sum +
            ([6, 8, 14, 16].map (fun l => bitAt u4 l)).sum) % 2 = 1 ↔
        (([5, 7, 8].map (fun l => bitAt ⟨0xABCD⟩ l)).sum +
         ([6, 8, 14, 16].map (fun l => bitAt u4 l)).sum) % 2 = 0) :=
  C2_check_linear_approx ⟨1, 2, 3, 4, 5⟩ ⟨0xABCD⟩ ⟨0x1234⟩ [5, 7, 8]
    [6, 8, 14, 16] (by decide) (by decide)

/-- C7: the built-in forward and inverse tables are exact inverses on their
16-element domains: composing the S-box lookup with the inverse S-box lookup
returns the input nibble, and composing the permutation lookup with the
inverse permutation lookup returns the input single-bit mask. -/
theorem C7_tables_inverse :
    (∀ x, x < 16 → lookup SBOX x = .ok (sboxF x) ∧
      lookup SBOX_INVERT (sboxF x) = .ok x) ∧
    (∀ i, i < 16 → lookup PERMUTATION (1 <<< i) = .ok (1 <<< sigmaF i) ∧
      lookup PERMUTATION_INVERT (1 <<< sigmaF i) = .ok (1 <<< i)) := by decide

/-- Witness for C7 at nibble 0xA and bit mask 0x0008 (i = 3). -/
theorem C7_tables_inverse_witness :
    (lookup SBOX 0xA = .ok (sboxF 0xA) ∧
      lookup SBOX_INVERT (sboxF 0xA) = .ok 0xA) ∧
    (lookup PERMUTATION (1 <<< 3) = .ok (1 <<< sigmaF 3) ∧
      lookup PERMUTATION_INVERT (1 <<< sigmaF 3) = .ok (1 <<< 3)) :=
  ⟨C7_tables_inverse.1 0xA (by decide), C7_tables_inverse.2 3 (by decide)⟩

/-- C6: `Block::substitute` with a total nibble-valued table looks up the
four nibbles independently and reassembles them in place, so nibble `i` of
the output is a function of nibble `i` of the input and the table alone; in
particular the forward S-box sends 0xABCD to 0x6C59. -/
theorem C6_substitute_nibbles :
    (∀ (T : List (Nat × Nat)) (f : Nat → Nat),
      (∀ n, n < 16 → lookup T n = .ok (f n)) → (∀ n, n < 16 → f n < 16) →
      ∀ v, ∃ w, Block.substitute ⟨v⟩ T = .ok ⟨w⟩ ∧ w < 65536 ∧
        ∀ i, i < 4 → nib w i = f (nib v i)) ∧
    (Block.mk 0xABCD).substitute SBOX = .ok (Block.mk 0x6C59) := by
  constructor
  · intro T f hT hf v
    have hs := substitute_eq_of T f hT v
    have ha := hf (v % 16) (Nat.mod_lt _ (by norm_num))
    have hb := hf ((v >>> 4) % 16) (Nat.mod_lt _ (by norm_num))
    have hc := hf ((v >>> 8) % 16) (Nat.mod_lt _ (by norm_num))
    have hd := hf ((v >>> 12) % 16) (Nat.mod_lt _ (by norm_num))
    obtain ⟨x0, x1, x2, x3⟩ := nib_extract _ _ _ _ ha hb hc hd
    refine ⟨_, hs, assemble_lt _ _ _ _ ha hb hc hd, ?_⟩
    intro i hi
    interval_cases i
    · simpa [nib] using x0
    · simpa [nib] using x1
    · simpa [nib] using x2
    · simpa [nib] using x3
  · decide

/-- Witness for C6: the generic nibble-independence statement applied to the
concrete forward S-box and input 0xABCD. -/
theorem C6_substitute_nibbles_witness :
    (∃ w, Block.substitute ⟨0xABCD⟩ SBOX = .ok ⟨w⟩ ∧ w < 65536 ∧
      ∀ i, i < 4 → nib w i = sboxF (nib 0xABCD i)) ∧
    (Block.mk 0xABCD).substitute SBOX = .ok (Block.mk 0x6C59) :=
  ⟨C6_substitute_nibbles.1 SBOX sboxF lookup_SBOX_eq sboxF_lt 0xABCD,
   C6_substitute_nibbles.2⟩

/-- C8 counterexample: `get_bit_1base` does report a range error for an
out-of-range location, but `check_linear_approx` UNWRAPS it: the embedded
evaluator yields `none`, which models a Rust panic (process abort), not a
failure value reported to the evaluator's caller; the claim's propagation
half is false. -/
theorem C8_counterexample :
    Block.get_bit_1base ⟨0⟩ 17 = .error "loc must be between 1 and 16" ∧
    HeysCipher.check_linear_approx ⟨0, 0, 0, 0, 0⟩ ⟨0⟩ ⟨0⟩ [17] [] = none := by
  constructor
  · rfl
  · decide

/-- C8 amended: `get_bit_1base` returns an error exactly when the location
is outside [1,16] and otherwise the 0/1 bit at the 1-based big-endian
position; `check_linear_approx` unwraps these errors, so an invalid bit
location makes the evaluator panic (`none`) rather than return the error to
its caller. -/
theorem C8_get_bit_range_and_panic :
    (∀ (b : Block) (loc : Nat),
      (∃ e, b.get_bit_1base loc = .error e) ↔ (loc < 1 ∨ 16 < loc)) ∧
    (∀ (b : Block) (loc : Nat), 1 ≤ loc → loc ≤ 16 →
      b.get_bit_1base loc = .ok (bitAt b loc)) ∧
    (∀ (c : HeysCipher) (pt ct : Block) (loc : Nat), loc < 1 ∨ 16 < loc →
      c.check_linear_approx pt ct [loc] [] = none) := by
  refine ⟨fun b loc => ?_, fun b loc h1 h2 => get_bit_1base_valid b loc h1 h2,
    fun c pt ct loc hloc => ?_⟩
  · unfold Block.get_bit_1base
    by_cases h : loc < 1 ∨ loc > 16
    · rw [if_pos h]
      exact iff_of_true ⟨_, rfl⟩ h
    · rw [if_neg h]
      constructor
      · rintro ⟨e, he⟩
        by_cases hb : b.val &&& (1 <<< (16 - loc)) = 0 <;> simp [hb] at he
      · intro hc
        exact absurd hc h
  · unfold HeysCipher.check_linear_approx
    have hsub := substitute_eq_of SBOX_INVERT sboxInvF lookup_SBOX_INVERT_eq
      (ct.val ^^^ c.k4)
    rw [show ct.mix_key c.k4 = ⟨ct.val ^^^ c.k4⟩ from rfl, hsub]
    show (some _ >>= _) = none
    rw [option_bind_some]
    have herr : pt.get_bit_1base loc = .error "loc must be between 1 and 16" := by
      unfold Block.get_bit_1base
      rw [if_pos (by omega)]
    rw [List.mapM_cons, herr]
    rfl

/-- Witness for C8 (amended) at locations 0, 16 and 17. -/
theorem C8_get_bit_range_and_panic_witness :
    (∃ e, Block.get_bit_1base ⟨0⟩ 0 = .error e) ∧
    Block.get_bit_1base ⟨0xFFFF⟩ 16 = .ok (bitAt ⟨0xFFFF⟩ 16) ∧
    HeysCipher.check_linear_approx ⟨0, 0, 0, 0, 0⟩ ⟨1⟩ ⟨1⟩ [17] [] = none :=
  ⟨(C8_get_bit_range_and_panic.1 ⟨0⟩ 0).mpr (by omega),
   C8_get_bit_range_and_panic.2.1 ⟨0xFFFF⟩ 16 (by omega) (by omega),
   C8_get_bit_range_and_panic.2.2 ⟨0, 0, 0, 0, 0⟩ ⟨1⟩ ⟨1⟩ 17 (by omega)⟩

theorem substitute_eq_substF (T : List (Nat × Nat)) (f : Nat → Nat)
    (h : ∀ n, n < 16 → lookup T n = .ok (f n)) (v : Nat) :
    Block.substitute ⟨v⟩ T = .ok ⟨substF f v⟩ :=
  substitute_eq_of T f h v

theorem nib_substF (f : Nat → Nat) (hf : ∀ n, n < 16 → f n < 16) (v : Nat) :
    ∀ i, i < 4 → nib (substF f v) i = f (nib v i) := by
  have ha := hf (v % 16) (Nat.mod_lt _ (by norm_num))
  have hb := hf ((v >>> 4) % 16) (Nat.mod_lt _ (by norm_num))
  have hc := hf ((v >>> 8) % 16) (Nat.mod_lt _ (by norm_num))
  have hd := hf ((v >>> 12) % 16) (Nat.mod_lt _ (by norm_num))
  obtain ⟨x0, x1, x2, x3⟩ := nib_extract _ _ _ _ ha hb hc hd
  intro i hi
  interval_cases i
  · simpa [nib, substF] using x0
  · simpa [nib, substF] using x1
  · simpa [nib, substF] using x2
  · simpa [nib, substF] using x3

theorem nib_xor (a b j : Nat) : nib (a ^^^ b) j = nib a j ^^^ nib b j := by
  unfold nib
  rw [show (16 : Nat) = 2 ^ 4 from rfl]
  apply Nat.eq_of_testBit_eq
  intro t
  simp only [Nat.testBit_mod_two_pow, Nat.testBit_shiftRight, Nat.testBit_xor]
  by_cases ht : t < 4 <;> simp [ht]

theorem bit_from_nib (W : Nat) (loc : Nat) (h1 : 1 ≤ loc) (h2 : loc ≤ 16) :
    bitAt ⟨W⟩ loc = nib W ((16 - loc) / 4) / 2 ^ ((16 - loc) % 4) % 2 := by
  unfold bitAt nib
  simp only [Nat.shiftRight_eq_div_pow]
  interval_cases loc <;> norm_num <;> omega

theorem substF_bit_eq (f : Nat → Nat) (hf : ∀ n, n < 16 → f n < 16)
    (a b loc : Nat) (h1 : 1 ≤ loc) (h2 : loc ≤ 16)
    (hnib : nib a ((16 - loc) / 4) = nib b ((16 - loc) / 4)) :
    bitAt ⟨substF f a⟩ loc = bitAt ⟨substF f b⟩ loc := by
  rw [bit_from_nib _ loc h1 h2, bit_from_nib _ loc h1 h2,
    nib_substF f hf a _ (by omega), nib_substF f hf b _ (by omega), hnib]

/-- C5: the evaluator's result depends on the final round subkey only
through the nibbles aligned with the nibbles containing the `u4_locs` bits:
two ciphers with arbitrary round keys 0..3 and final subkeys agreeing on
those nibbles produce identical `check_linear_approx` results on every
plaintext/ciphertext pair and every `pt_locs`. -/
theorem C5_check_depends_on_aligned_nibbles (c c' : HeysCipher) (pt ct : Block)
    (pt_locs u4_locs : List Nat)
    (hu4 : ∀ l ∈ u4_locs, 1 ≤ l ∧ l ≤ 16)
    (hagree : ∀ l ∈ u4_locs, nib c.k4 ((16 - l) / 4) = nib c'.k4 ((16 - l) / 4)) :
    c.check_linear_approx pt ct pt_locs u4_locs =
      c'.check_linear_approx pt ct pt_locs u4_locs := by
  unfold HeysCipher.check_linear_approx
  rw [show ct.mix_key c.k4 = ⟨ct.val ^^^ c.k4⟩ from rfl,
    show ct.mix_key c'.k4 = ⟨ct.val ^^^ c'.k4⟩ from rfl,
    substitute_eq_substF SBOX_INVERT sboxInvF lookup_SBOX_INVERT_eq
      (ct.val ^^^ c.k4),
    substitute_eq_substF SBOX_INVERT sboxInvF lookup_SBOX_INVERT_eq
      (ct.val ^^^ c'.k4)]
  show (some _ >>= _) = (some _ >>= _)
  rw [option_bind_some, option_bind_some]
  cases hmp : pt_locs.mapM (fun loc => unwrap (pt.get_bit_1base loc)) with
  | none => rfl
  | some ptBits =>
    rw [option_bind_some, option_bind_some,
      mapM_unwrap_get_bits _ u4_locs hu4, mapM_unwrap_get_bits _ u4_locs hu4,
      option_bind_some, option_bind_some]
    have hmaps : (u4_locs.map
        (fun l => bitAt ⟨substF sboxInvF (ct.val ^^^ c.k4)⟩ l)) =
        (u4_locs.map (fun l => bitAt ⟨substF sboxInvF (ct.val ^^^ c'.k4)⟩ l)) := by
      apply List.map_congr_left
      intro l hl
      apply substF_bit_eq sboxInvF sboxInvF_lt _ _ l (hu4 l hl).1 (hu4 l hl).2
      rw [nib_xor, nib_xor, hagree l hl]
    rw [hmaps]

/-- Witness for C5: two ciphers with entirely different round keys 0..3 and
final subkeys 0x00F0 and 0x10F2 agreeing on nibble 2 (the nibble holding
bits at locations 6 and 8). -/
theorem C5_check_depends_on_aligned_nibbles_witness :
    (HeysCipher.mk 1 2 3 4 0x00F0).check_linear_approx ⟨0xABCD⟩ ⟨0x1234⟩
        [5, 7, 8] [6, 8] =
      (HeysCipher.mk 9 8 7 6 0x10F2).check_linear_approx ⟨0xABCD⟩ ⟨0x1234⟩
        [5, 7, 8] [6, 8] :=
  C5_check_depends_on_aligned_nibbles (HeysCipher.mk 1 2 3 4 0x00F0)
    (HeysCipher.mk 9 8 7 6 0x10F2) ⟨0xABCD⟩ ⟨0x1234⟩ [5, 7, 8] [6, 8]
    (by decide) (by decide)

theorem check_is_bit (c : HeysCipher) (pt ct : Block) (ptl u4l : List Nat)
    (hpt : ∀ l ∈ ptl, 1 ≤ l ∧ l ≤ 16) (hu4 : ∀ l ∈ u4l, 1 ≤ l ∧ l ≤ 16) :
    ∃ r, c.check_linear_approx pt ct ptl u4l = some r ∧ r ≤ 1 := by
  unfold HeysCipher.check_linear_approx
  rw [show ct.mix_key c.k4 = ⟨ct.val ^^^ c.k4⟩ from rfl,
    substitute_eq_substF SBOX_INVERT sboxInvF lookup_SBOX_INVERT_eq
      (ct.val ^^^ c.k4)]
  show ∃ r, (some _ >>= _) = some r ∧ r ≤ 1
  rw [option_bind_some, mapM_unwrap_get_bits pt ptl hpt, option_bind_some,
    mapM_unwrap_get_bits _ u4l hu4, option_bind_some]
  exact ⟨_, rfl, by omega⟩

theorem mapM_check_go (c : HeysCipher) (ptl u4l : List Nat)
    (hpt : ∀ l ∈ ptl, 1 ≤ l ∧ l ≤ 16) (hu4 : ∀ l ∈ u4l, 1 ≤ l ∧ l ≤ 16) :
    ∀ L : List (Block × Block),
      ∃ votes, L.mapM (fun pc => c.check_linear_approx pc.1 pc.2 ptl u4l) =
          some votes ∧
        votes.length = L.length ∧ (∀ v ∈ votes, v ≤ 1) ∧
        votes.sum = (L.filter
          (fun pc => c.check_linear_approx pc.1 pc.2 ptl u4l = some 1)).length := by
  intro L
  induction L with
  | nil => exact ⟨[], rfl, rfl, by simp, by simp⟩
  | cons pc rest ih =>
    obtain ⟨votes, hv, hlen, hle, hsum⟩ := ih
    obtain ⟨r, hr, hr1⟩ := check_is_bit c pc.1 pc.2 ptl u4l hpt hu4
    refine ⟨r :: votes, ?_, by simp [hlen], ?_, ?_⟩
    · rw [List.mapM_cons, hr, option_bind_some, hv, option_bind_some]
      rfl
    · intro v hv'
      rcases List.mem_cons.mp hv' with h | h
      · exact h ▸ hr1
      · exact hle v h
    · rw [List.sum_cons, hsum]
      by_cases h1 : r = 1
      · rw [List.filter_cons_of_pos (by simp [hr, h1])]
        simp [h1, Nat.add_comm]
      · rw [List.filter_cons_of_neg (by simp [hr, h1])]
        have : r = 0 := by omega
        simp [this]

theorem sum_le_length (l : List Nat) (h : ∀ v ∈ l, v ≤ 1) : l.sum ≤ l.length := by
  induction l with
  | nil => simp
  | cons v rest ih =>
    rw [List.sum_cons, List.length_cons]
    have h1 := h v (List.mem_cons_self v rest)
    have h2 := ih (fun x hx => h x (List.mem_cons_of_mem v hx))
    omega

theorem sumU16_foldl_eq (l : List Nat) :
    ∀ acc, acc + l.sum < 65536 →
      l.foldl (fun a v => (a + v) % 65536) acc = acc + l.sum := by
  induction l with
  | nil => intro acc h; simp
  | cons v rest ih =>
    intro acc h
    rw [List.sum_cons] at h
    rw [List.foldl_cons, Nat.mod_eq_of_lt (by omega), ih (acc + v) (by omega),
      List.sum_cons]
    omega

theorem sumU16_eq_sum (l : List Nat) (h : l.sum < 65536) : sumU16 l = l.sum := by
  unfold sumU16
  rw [sumU16_foldl_eq l 0 (by omega)]
  omega

theorem get_bias_ok (c : HeysCipher) (pts cts : List Block) (ptl u4l : List Nat)
    (hpt : ∀ l ∈ ptl, 1 ≤ l ∧ l ≤ 16) (hu4 : ∀ l ∈ u4l, 1 ≤ l ∧ l ≤ 16) :
    ∃ q, c.get_bias pts cts ptl u4l = some q := by
  unfold HeysCipher.get_bias
  obtain ⟨votes, hv, -, -, -⟩ := mapM_check_go c ptl u4l hpt hu4 (pts.zip cts)
  rw [hv, option_bind_some]
  exact ⟨_, rfl⟩

/-- C10: for an equal-length corpus of at most 65535 pairs, every evaluator
vote is 0 or 1, the u16 wrapping accumulation in `get_bias` never wraps (it
equals the plain sum, which stays at or below u16::MAX), and the sum equals
the exact count of pairs on which `check_linear_approx` returns 1. -/
theorem C10_vote_sum_no_wrap (c : HeysCipher) (pts cts : List Block)
    (ptl u4l : List Nat)
    (hpt : ∀ l ∈ ptl, 1 ≤ l ∧ l ≤ 16) (hu4 : ∀ l ∈ u4l, 1 ≤ l ∧ l ≤ 16)
    (hlen : pts.length = cts.length) (hbound : pts.length ≤ 65535) :
    ∃ votes, (pts.zip cts).mapM
        (fun pc => c.check_linear_approx pc.1 pc.2 ptl u4l) = some votes ∧
      (∀ v ∈ votes, v ≤ 1) ∧
      sumU16 votes = votes.sum ∧
      votes.sum = countOnes c pts cts ptl u4l ∧
      votes.sum ≤ 65535 := by
  obtain ⟨votes, hv, hvlen, hle, hsum⟩ := mapM_check_go c ptl u4l hpt hu4
    (pts.zip cts)
  have hzlen : (pts.zip cts).length = pts.length := by
    rw [List.length_zip, hlen, Nat.min_self]
  have hsumle : votes.sum ≤ 65535 := by
    have := sum_le_length votes hle
    omega
  exact ⟨votes, hv, hle, sumU16_eq_sum votes (by omega), hsum, hsumle⟩

/-- Witness for C10 at a concrete 2-pair corpus. -/
theorem C10_vote_sum_no_wrap_witness :
    ∃ votes, ([Block.mk 0, Block.mk 1].zip [Block.mk 2, Block.mk 3]).mapM
        (fun pc => HeysCipher.check_linear_approx ⟨0, 0, 0, 0, 0⟩ pc.1 pc.2
          [5] [6]) = some votes ∧
      (∀ v ∈ votes, v ≤ 1) ∧
      sumU16 votes = votes.sum ∧
      votes.sum = countOnes ⟨0, 0, 0, 0, 0⟩ [Block.mk 0, Block.mk 1]
        [Block.mk 2, Block.mk 3] [5] [6] ∧
      votes.sum ≤ 65535 :=
  C10_vote_sum_no_wrap ⟨0, 0, 0, 0, 0⟩ [Block.mk 0, Block.mk 1]
    [Block.mk 2, Block.mk 3] [5] [6] (by decide) (by decide) (by decide)
    (by decide)

/-- C9 counterexample: with mismatched corpus lengths (2 plaintexts, 1
ciphertext) `get_bias` does not fail: it silently truncates to the single
zipped pair and returns the ordinary bias value 0. -/
theorem C9_counterexample :
    [Block.mk 0, Block.mk 1].length ≠ [Block.mk 2].length ∧
    HeysCipher.get_bias ⟨0, 0, 0, 0, 0⟩ [Block.mk 0, Block.mk 1] [Block.mk 2]
      [] [] = some 0 := by
  constructor
  · decide
  · unfold HeysCipher.get_bias
    have h1 : ([Block.mk 0, Block.mk 1].zip [Block.mk 2]).mapM
        (fun pc => HeysCipher.check_linear_approx ⟨0, 0, 0, 0, 0⟩ pc.1 pc.2
          [] []) = some [1] := by decide
    rw [h1, option_bind_some, show sumU16 [1] = 1 from rfl]
    norm_num

/-- C9 amended: for valid bit locations and a non-empty plaintext list,
`get_bias` never fails, even when the two corpus lengths differ: `zip`
silently truncates to the shorter sequence and an ordinary rational value is
returned.  (With an empty plaintext list the Rust code's f64 division by
zero yields NaN rather than a reported failure.) -/
theorem C9_get_bias_no_failure (c : HeysCipher) (pts cts : List Block)
    (ptl u4l : List Nat)
    (hpt : ∀ l ∈ ptl, 1 ≤ l ∧ l ≤ 16) (hu4 : ∀ l ∈ u4l, 1 ≤ l ∧ l ≤ 16)
    (hne : pts ≠ []) :
    ∃ q, c.get_bias pts cts ptl u4l = some q :=
  get_bias_ok c pts cts ptl u4l hpt hu4

/-- Witness for C9 (amended) at the mismatched corpus of the
counterexample, with non-trivial bit locations. -/
theorem C9_get_bias_no_failure_witness :
    ∃ q, HeysCipher.get_bias ⟨0, 0, 0, 0, 0⟩ [Block.mk 0, Block.mk 1]
      [Block.mk 2] [5] [6] = some q :=
  C9_get_bias_no_failure ⟨0, 0, 0, 0, 0⟩ [Block.mk 0, Block.mk 1] [Block.mk 2]
    [5] [6] (by decide) (by decide) (by decide)

/-- C3 amended: for a non-empty equal-length corpus of at most 65535 pairs
(the bound needed so the u16 vote accumulation cannot wrap), `get_bias`
returns `|p - 1/2|` where `p` is the fraction of pairs on which the
evaluator returns 1, and the value lies in [0, 1/2]. -/
theorem C3_bias_abs (c : HeysCipher) (pts cts : List Block) (ptl u4l : List Nat)
    (hpt : ∀ l ∈ ptl, 1 ≤ l ∧ l ≤ 16) (hu4 : ∀ l ∈ u4l, 1 ≤ l ∧ l ≤ 16)
    (hlen : pts.length = cts.length) (hne : pts ≠ [])
    (hbound : pts.length ≤ 65535) :
    ∃ p : ℚ, p = (countOnes c pts cts ptl u4l : ℚ) / (pts.length : ℚ) ∧
      c.get_bias pts cts ptl u4l = some |p - 1/2| ∧
      0 ≤ |p - 1/2| ∧ |p - 1/2| ≤ 1/2 := by
  obtain ⟨votes, hv, hvlen, hle, hsum⟩ := mapM_check_go c ptl u4l hpt hu4
    (pts.zip cts)
  have hsum' : votes.sum = countOnes c pts cts ptl u4l := hsum
  have hzlen : (pts.zip cts).length = pts.length := by
    rw [List.length_zip, hlen, Nat.min_self]
  have hsumle : votes.sum ≤ pts.length := by
    have := sum_le_length votes hle
    omega
  have hwrap : sumU16 votes = votes.sum := sumU16_eq_sum votes (by omega)
  have hlenpos : 0 < pts.length := List.length_pos.mpr hne
  have hcle : countOnes c pts cts ptl u4l ≤ pts.length := by omega
  set p : ℚ := (countOnes c pts cts ptl u4l : ℚ) / (pts.length : ℚ) with hp
  have hp0 : 0 ≤ p := div_nonneg (Nat.cast_nonneg _) (Nat.cast_nonneg _)
  have hp1 : p ≤ 1 := by
    rw [hp]
    apply div_le_one_of_le (by exact_mod_cast hcle) (Nat.cast_nonneg _)
  refine ⟨p, rfl, ?_, abs_nonneg _, abs_le.mpr ⟨by linarith, by linarith⟩⟩
  unfold HeysCipher.get_bias
  rw [hv, option_bind_some, hwrap, hsum']
  show some (if (1 : ℚ)/2 < (countOnes c pts cts ptl u4l : ℚ) / (pts.length : ℚ)
      then ((countOnes c pts cts ptl u4l : ℚ) / (pts.length : ℚ)) - 1/2
      else 1/2 - (countOnes c pts cts ptl u4l : ℚ) / (pts.length : ℚ)) =
    some |p - 1/2|
  rw [← hp]
  by_cases hc : (1 : ℚ)/2 < p
  · rw [if_pos hc, abs_of_nonneg (by linarith)]
  · rw [if_neg hc, abs_of_nonpos (by linarith), neg_sub]

/-- Witness for C3 (amended) at a concrete 2-pair corpus. -/
theorem C3_bias_abs_witness :
    ∃ p : ℚ, p = (countOnes ⟨0, 0, 0, 0, 0⟩ [Block.mk 0, Block.mk 1]
        [Block.mk 2, Block.mk 3] [5] [6] : ℚ) /
        (([Block.mk 0, Block.mk 1] : List Block).length : ℚ) ∧
      HeysCipher.get_bias ⟨0, 0, 0, 0, 0⟩ [Block.mk 0, Block.mk 1]
        [Block.mk 2, Block.mk 3] [5] [6] = some |p - 1/2| ∧
      0 ≤ |p - 1/2| ∧ |p - 1/2| ≤ 1/2 :=
  C3_bias_abs ⟨0, 0, 0, 0, 0⟩ [Block.mk 0, Block.mk 1] [Block.mk 2, Block.mk 3]
    [5] [6] (by decide) (by decide) (by decide) (by decide) (by decide)

theorem mapM_replicate {α β : Type} (f : α → Option β) (x : α) (y : β)
    (h : f x = some y) :
    ∀ n, (List.replicate n x).mapM f = some (List.replicate n y) := by
  intro n
  induction n with
  | zero => rfl
  | succ m ih =>
    rw [List.replicate_succ, List.mapM_cons, h, option_bind_some, ih,
      option_bind_some, List.replicate_succ]
    rfl

theorem sumU16_replicate_one_go :
    ∀ n acc, acc < 65536 →
      (List.replicate n 1).foldl (fun a v => (a + v) % 65536) acc =
        (acc + n) % 65536 := by
  intro n
  induction n with
  | zero =>
    intro acc h
    simp [Nat.mod_eq_of_lt h]
  | succ m ih =>
    intro acc h
    rw [List.replicate_succ, List.foldl_cons, ih ((acc + 1) % 65536)
      (Nat.mod_lt _ (by omega))]
    omega

theorem sumU16_replicate_one (n : Nat) :
    sumU16 (List.replicate n 1) = n % 65536 := by
  unfold sumU16
  rw [sumU16_replicate_one_go n 0 (by omega)]
  omega

/-- C3 counterexample: on the 65537-pair corpus of all-zero blocks with
empty bit-location lists, every pair's evaluator vote is 1, so the fraction
of voting pairs is 1 and the claimed value `|1 - 1/2|` is `1/2`; but the u16
vote accumulation wraps (65537 votes of 1 wrap to a sum of 1) and the code
returns `1/2 - 1/65537` instead.  The claim quantified over every non-empty
equal-length corpus is therefore false. -/
theorem C3_counterexample :
    ((List.replicate 65537 (Block.mk 0)).zip
        (List.replicate 65537 (Block.mk 0))).mapM
      (fun pc => HeysCipher.check_linear_approx ⟨0, 0, 0, 0, 0⟩ pc.1 pc.2
        [] []) = some (List.replicate 65537 1) ∧
    HeysCipher.get_bias ⟨0, 0, 0, 0, 0⟩ (List.replicate 65537 (Block.mk 0))
      (List.replicate 65537 (Block.mk 0)) [] [] =
        some (1/2 - 1/65537 : ℚ) ∧
    ((1 : ℚ)/2 - 1/65537) ≠ |(65537 : ℚ)/65537 - 1/2| := by
  have hzip : (List.replicate 65537 (Block.mk 0)).zip
      (List.replicate 65537 (Block.mk 0)) =
      List.replicate 65537 (Block.mk 0, Block.mk 0) := by
    exact List.zip_replicate'
  have hmap := mapM_replicate
    (fun pc => HeysCipher.check_linear_approx ⟨0, 0, 0, 0, 0⟩ pc.1 pc.2 [] [])
    (Block.mk 0, Block.mk 0) 1 (by decide) 65537
  refine ⟨?_, ?_, ?_⟩
  · rw [hzip]
    exact hmap
  · unfold HeysCipher.get_bias
    rw [hzip, hmap, option_bind_some,
      show sumU16 (List.replicate 65537 1) = 1 from by
        rw [sumU16_replicate_one],
      List.length_replicate]
    norm_num
  · rw [show (65537 : ℚ)/65537 - 1/2 = (1 : ℚ)/2 by norm_num,
      abs_of_nonneg (by norm_num : (0 : ℚ) ≤ 1/2)]
    norm_num

theorem mapM_some_of {α β : Type} (f : α → Option β) (g : α → β) :
    ∀ L : List α, (∀ a ∈ L, f a = some (g a)) → L.mapM f = some (L.map g) := by
  intro L
  induction L with
  | nil => intro _; rfl
  | cons a rest ih =>
    intro h
    rw [List.mapM_cons, h a (List.mem_cons_self a rest), option_bind_some,
      ih (fun x hx => h x (List.mem_cons_of_mem a hx)), option_bind_some,
      List.map_cons]
    rfl

theorem pair_sublist_range {i j n : Nat} (hij : i < j) (hjn : j < n) :
    List.Sublist [i, j] (List.range n) := by
  have h1 : List.Sublist [i] (List.range j) :=
    List.singleton_sublist.mpr (List.mem_range.mpr hij)
  have h2 : List.Sublist ([i] ++ [j]) (List.range j ++ [j]) :=
    h1.append (List.Sublist.refl [j])
  have h3 : List.range j ++ [j] = List.range (j + 1) := (List.range_succ j).symm
  exact (h3 ▸ h2).trans (List.range_sublist.mpr hjn)

/-- C4: `brute_force_k5` evaluates all 65536 final-round-subkey candidates,
each with the other four round keys zero, and returns the (bias, candidate)
pairs sorted by descending bias; every 16-bit candidate appears exactly once
(the second components are a permutation of 0..65535), and equal-bias
candidates keep their enumeration order (stable sort). -/
theorem C4_brute_force_ranked (pts cts : List Block) (ptl u4l : List Nat)
    (hpt : ∀ l ∈ ptl, 1 ≤ l ∧ l ≤ 16) (hu4 : ∀ l ∈ u4l, 1 ≤ l ∧ l ≤ 16)
    (hlen : pts.length = cts.length) (hne : pts ≠ []) :
    ∃ l : List (ℚ × Nat), brute_force_k5 pts cts ptl u4l = some l ∧
      List.Perm (l.map Prod.snd) (List.range 65536) ∧
      (∀ e ∈ l, HeysCipher.get_bias ⟨0, 0, 0, 0, e.2⟩ pts cts ptl u4l =
        some e.1) ∧
      l.Pairwise (fun e1 e2 => e2.1 ≤ e1.1) ∧
      (∀ rk1 rk2 b1 b2, rk1 < rk2 → rk2 < 65536 →
        HeysCipher.get_bias ⟨0, 0, 0, 0, rk1⟩ pts cts ptl u4l = some b1 →
        HeysCipher.get_bias ⟨0, 0, 0, 0, rk2⟩ pts cts ptl u4l = some b2 →
        b1 = b2 → List.Sublist [(b1, rk1), (b2, rk2)] l) := by
  have hget : ∀ rk : Nat, HeysCipher.get_bias ⟨0, 0, 0, 0, rk⟩ pts cts ptl u4l =
      some (biasQ pts cts ptl u4l rk) := by
    intro rk
    obtain ⟨q, hq⟩ := get_bias_ok ⟨0, 0, 0, 0, rk⟩ pts cts ptl u4l hpt hu4
    rw [hq]
    unfold biasQ
    rw [hq]
    rfl
  have hmapM : (List.range 65536).mapM (fun round_key =>
      (do
        let cipher ← unwrap (HeysCipher.from_keys [0, 0, 0, 0, round_key])
        let bias ← cipher.get_bias pts cts ptl u4l
        return (bias, round_key) : Option (ℚ × Nat))) =
      some ((List.range 65536).map
        (fun rk => (biasQ pts cts ptl u4l rk, rk))) := by
    apply mapM_some_of
    intro rk _
    show (unwrap (HeysCipher.from_keys [0, 0, 0, 0, rk]) >>= _) = _
    rw [show unwrap (HeysCipher.from_keys [0, 0, 0, 0, rk]) =
      some ⟨0, 0, 0, 0, rk⟩ from rfl, option_bind_some, hget rk,
      option_bind_some]
    rfl
  have hb : brute_force_k5 pts cts ptl u4l =
      some (((List.range 65536).map
        (fun rk => (biasQ pts cts ptl u4l rk, rk))).mergeSort
          (fun e1 e2 => decide (e2.1 ≤ e1.1))) := by
    unfold brute_force_k5
    rw [hmapM, option_bind_some]
    rfl
  have htrans : ∀ (a b c : ℚ × Nat),
      (decide (b.1 ≤ a.1) = true) → (decide (c.1 ≤ b.1) = true) →
      (decide (c.1 ≤ a.1) = true) := by
    intro a b c h1 h2
    simp only [decide_eq_true_eq] at h1 h2 ⊢
    exact le_trans h2 h1
  have htotal : ∀ (a b : ℚ × Nat),
      (decide (b.1 ≤ a.1) || decide (a.1 ≤ b.1)) = true := by
    intro a b
    simp only [Bool.or_eq_true, decide_eq_true_eq]
    exact le_total b.1 a.1
  refine ⟨_, hb, ?_, ?_, ?_, ?_⟩
  · have hperm := (List.mergeSort_perm ((List.range 65536).map
      (fun rk => (biasQ pts cts ptl u4l rk, rk)))
      (fun e1 e2 => decide (e2.1 ≤ e1.1))).map Prod.snd
    rw [List.map_map] at hperm
    have hcomp : (Prod.snd ∘ fun rk : Nat => (biasQ pts cts ptl u4l rk, rk)) = id := by
      funext rk
      rfl
    rw [hcomp, List.map_id] at hperm
    exact hperm
  · intro e he
    obtain ⟨rk, hrk, hge⟩ := List.mem_map.mp (List.mem_mergeSort.mp he)
    rw [← hge]
    exact hget rk
  · have hs := List.sorted_mergeSort htrans htotal
      ((List.range 65536).map (fun rk => (biasQ pts cts ptl u4l rk, rk)))
    exact hs.imp (fun h => by simpa [decide_eq_true_eq] using h)
  · intro rk1 rk2 b1 b2 h12 h2lt hb1 hb2 heq
    have hgb1 : biasQ pts cts ptl u4l rk1 = b1 :=
      Option.some.inj ((hget rk1).symm.trans hb1)
    have hgb2 : biasQ pts cts ptl u4l rk2 = b2 :=
      Option.some.inj ((hget rk2).symm.trans hb2)
    have hsubinput : List.Sublist [(biasQ pts cts ptl u4l rk1, rk1),
        (biasQ pts cts ptl u4l rk2, rk2)]
        ((List.range 65536).map (fun rk => (biasQ pts cts ptl u4l rk, rk))) :=
      (pair_sublist_range h12 h2lt).map (fun rk => (biasQ pts cts ptl u4l rk, rk))
    have hab : (decide ((biasQ pts cts ptl u4l rk2, rk2).1 ≤
        (biasQ pts cts ptl u4l rk1, rk1).1)) = true := by
      simp only [decide_eq_true_eq, hgb1, hgb2, heq]
      exact le_refl b2
    have hpair := List.pair_sublist_mergeSort htrans htotal hab hsubinput
    rw [hgb1, hgb2] at hpair
    exact hpair

/-- Witness for C4 at a concrete 1-pair corpus and single bit locations. -/
theorem C4_brute_force_ranked_witness :
    ∃ l : List (ℚ × Nat), brute_force_k5 [Block.mk 3] [Block.mk 7] [5] [6] =
        some l ∧
      List.Perm (l.map Prod.snd) (List.range 65536) ∧
      (∀ e ∈ l, HeysCipher.get_bias ⟨0, 0, 0, 0, e.2⟩ [Block.mk 3] [Block.mk 7]
        [5] [6] = some e.1) ∧
      l.Pairwise (fun e1 e2 => e2.1 ≤ e1.1) ∧
      (∀ rk1 rk2 b1 b2, rk1 < rk2 → rk2 < 65536 →
        HeysCipher.get_bias ⟨0, 0, 0, 0, rk1⟩ [Block.mk 3] [Block.mk 7] [5] [6] =
          some b1 →
        HeysCipher.get_bias ⟨0, 0, 0, 0, rk2⟩ [Block.mk 3] [Block.mk 7] [5] [6] =
          some b2 →
        b1 = b2 → List.Sublist [(b1, rk1), (b2, rk2)] l) :=
  C4_brute_force_ranked [Block.mk 3] [Block.mk 7] [5] [6] (by decide) (by decide)
    (by decide) (by decide)
